import Mathlib

/-!
Verification of the answer-search engine of the document question-answering
application (src/app.py).

The search handler (app.py, lines 126-212) is embedded shallowly:

* Page images only matter to the engine through the per-page Inference Client
  response, so a document is modelled as the list of responses the client
  gives for its pages, in page order (`Response`).  A raised exception during
  the client invocation for a page is modelled by `Response.failure`.
* Candidate scores are modelled as exact rationals and compared with the
  rational thresholds 1/100 and 1/20.  This matches the float code on every
  double-valued score except the one double closest to each threshold
  (Python compares against the doubles written 0.01 and 0.05), a boundary
  no claim depends on.
* The image-resize arithmetic (app.py lines 143-148) is float-sensitive, so
  it is modelled under IEEE-754 binary64 semantics: `roundsTo` is the
  round-to-nearest, ties-to-even rounding relation and `resize64` chains
  the rounded division, the rounded multiplications and the truncations
  exactly as the code does.
* Python strings are modelled as `List Char`, with `str.strip` modelled by
  `trimChars` (drop whitespace from both ends).
* The observable side effects of one search invocation - progress updates,
  client invocations and per-page failure warnings - are recorded in order in
  a trace of `Event`s.
-/

namespace DocQA

/-- Search mode radio button: "Quick (Best match)" or "Thorough (All pages)". -/
inductive SearchMode where
  | quick
  | thorough
deriving DecidableEq

/-- One element of the raw result sequence returned by the pipeline call.
`dictItem truthy answer score` models a Python dict (`truthy` is its Python
truth value, `none` fields model missing keys); `nonDict` models any
non-dict element. -/
inductive RawItem where
  | dictItem (truthy : Bool) (answer : Option (List Char)) (score : Option ℚ)
  | nonDict (truthy : Bool)
deriving DecidableEq

/-- Outcome of the Inference Client invocation for one page: a single bare
dict, a list of raw items, or a raised exception (`failure`). -/
inductive Response where
  | single (truthy : Bool) (answer : Option (List Char)) (score : Option ℚ)
  | many (items : List RawItem)
  | failure
deriving DecidableEq

/-- An entry appended to `all_answers`: {'page': i+1, 'answer': text, 'score': s}. -/
structure Candidate where
  page : Nat
  answer : List Char
  score : ℚ
deriving DecidableEq

/-- Observable side effects of the search loop, in emission order. -/
inductive Event where
  | progress (done total : Nat)
  | call (page : Nat)
  | pageError (page : Nat)
deriving DecidableEq

/-- Final report of one search invocation: the ranked answers, or the
"No answers found" warning. -/
inductive Report where
  | answers (l : List Candidate)
  | noAnswers
deriving DecidableEq

/-- Result of pressing the search button: the empty-question warning
("Please enter a question first."), or a completed scan with its trace. -/
inductive AppResult where
  | emptyQuestionWarning
  | completed (trace : List Event) (report : Report)
deriving DecidableEq

/-- Whitespace test used by the model of `str.strip`. -/
def wsChar (c : Char) : Bool := c.isWhitespace

/-- Drop trailing whitespace. -/
def dropTrail (l : List Char) : List Char :=
  (l.reverse.dropWhile wsChar).reverse

/-- Model of Python `str.strip()`: drop whitespace from both ends. -/
def trimChars (l : List Char) : List Char :=
  dropTrail (l.dropWhile wsChar)

/-- Inclusion threshold 0.01 (app.py line 167).  Written with `Rat.divInt`
so that concrete runs reduce inside the kernel; `inclusionThreshold_eq`
identifies it with 1/100. -/
def inclusionThreshold : ℚ := Rat.divInt 1 100

/-- Stop threshold 0.05 (app.py line 174); `stopThreshold_eq` identifies it
with 1/20. -/
def stopThreshold : ℚ := Rat.divInt 1 20

/-- Normalisation of the pipeline result (app.py lines 159-160): a bare dict
becomes a one-element list; a failure contributes no items. -/
def responseItems : Response → List RawItem
  | Response.single t a s => [RawItem.dictItem t a s]
  | Response.many l => l
  | Response.failure => []

/-- Processing of one raw result (app.py lines 162-172): skip anything that
is falsy or not a dict; default a missing 'answer' to '' and a missing
'score' to 0; keep the candidate only if score > 0.01 and the trimmed
answer is non-empty. -/
def processItem (i : Nat) : RawItem → Option Candidate
  | RawItem.dictItem true a s =>
      let answer := trimChars (a.getD [])
      let score := s.getD 0
      if inclusionThreshold < score ∧ answer ≠ [] then
        some (Candidate.mk (i+1) answer score)
      else none
  | _ => none

/-- Candidates appended to the accumulator while processing page `i`
(0-based), in discovery order. -/
def pageCandidates (i : Nat) (items : List RawItem) : List Candidate :=
  items.filterMap (processItem i)

/-- Quick-mode stop test (app.py line 174): `all_answers and
all_answers[-1]['score'] > 0.05`. -/
def quickBreakB (acc : List Candidate) : Bool :=
  match acc.getLast? with
  | some c => decide (stopThreshold < c.score)
  | none => false

/-- Events emitted while handling one page: the progress update (app.py
lines 135-137, emitted before the page is processed), the client
invocation, and - when that invocation raises - the per-page warning
(app.py line 178). -/
def pageBlock (total i : Nat) (r : Response) : List Event :=
  [Event.progress (i+1) total, Event.call (i+1)]
    ++ (if r = Response.failure then [Event.pageError (i+1)] else [])

/-- The page loop (app.py lines 134-179).  `i` is the 0-based index of the
next page, `acc` is `all_answers`, `tr` the trace emitted so far. -/
def stepPages (mode : SearchMode) (total : Nat) :
    List Response → Nat → List Candidate → List Event → List Candidate × List Event
  | [], _, acc, tr => (acc, tr)
  | r :: rs, i, acc, tr =>
      if r = Response.failure then
        stepPages mode total rs (i+1) acc (tr ++ pageBlock total i r)
      else
        let acc1 := acc ++ pageCandidates i (responseItems r)
        if mode = SearchMode.quick ∧ quickBreakB acc1 = true then
          (acc1, tr ++ pageBlock total i r)
        else
          stepPages mode total rs (i+1) acc1 (tr ++ pageBlock total i r)

/-- One full scan: accumulator and trace produced by the loop over all pages. -/
def runSearch (mode : SearchMode) (responses : List Response) :
    List Candidate × List Event :=
  stepPages mode responses.length responses 0 [] []

/-- Stable insertion of a candidate into a list sorted by descending score:
the incoming element (earlier in discovery order than everything already
sorted past it) goes before elements of equal or smaller score. -/
def insertDesc (c : Candidate) : List Candidate → List Candidate
  | [] => [c]
  | d :: ds => if d.score ≤ c.score then c :: d :: ds else d :: insertDesc c ds

/-- Model of `all_answers.sort(key=lambda x: x['score'], reverse=True)`
(app.py line 187): a stable sort by descending score. -/
def sortDesc : List Candidate → List Candidate
  | [] => []
  | c :: cs => insertDesc c (sortDesc cs)

/-- The search-button handler (app.py lines 126-212): a falsy (empty)
question is rejected with a warning; otherwise the loop runs, and an empty
accumulator yields the "No answers found" report while a non-empty one is
sorted and displayed. -/
def runApp (question : List Char) (mode : SearchMode) (responses : List Response) :
    AppResult :=
  if question = [] then AppResult.emptyQuestionWarning
  else
    let r := runSearch mode responses
    if r.1 = [] then AppResult.completed r.2 Report.noAnswers
    else AppResult.completed r.2 (Report.answers (sortDesc r.1))

/-- Test for a client-invocation event. -/
def isCall : Event → Bool
  | Event.call _ => true
  | _ => false

/-- Number of Inference Client invocations recorded in a trace. -/
def countCalls (tr : List Event) : Nat := (tr.filter isCall).length

/-- Number of client invocations observed by the caller. -/
def appCalls : AppResult → Nat
  | AppResult.emptyQuestionWarning => 0
  | AppResult.completed tr _ => countCalls tr

/-- Trace produced by processing the given pages in order, starting at
0-based page index `i`. -/
def blockList (total : Nat) : Nat → List Response → List Event
  | _, [] => []
  | i, r :: rs => pageBlock total i r ++ blockList total (i+1) rs

/-- Accumulator contents produced by processing the given pages in order,
starting at 0-based page index `i`: the concatenation of each page's kept
candidates (a failing page contributes nothing). -/
def accSpec : Nat → List Response → List Candidate
  | _, [] => []
  | i, r :: rs => pageCandidates i (responseItems r) ++ accSpec (i+1) rs

/-- The Quick-mode stop condition as evaluated right after page `j`
(1-based) of `rs`: page `j`'s invocation did not raise, and the accumulator
at that point (started from `acc`, pages numbered from `i`) ends in a
candidate of score > 0.05. -/
def brkAt (i : Nat) (acc : List Candidate) (rs : List Response) : Nat → Prop
  | 0 => False
  | j+1 =>
      rs.getD j Response.failure ≠ Response.failure
      ∧ quickBreakB (acc ++ accSpec i (rs.take (j+1))) = true

/-- IEEE-754 binary64 round-to-nearest, ties-to-even, as a relation:
`roundsTo q r` holds when `r` is the double produced by rounding the exact
rational operand value `q`.  For `q > 0` the witness `e` places `q` in its
binade (so the unit in the last place is `2^e`), the result is a 53-bit
significand `m` times that ulp, `r` lies within half an ulp of `q`, and an
exact half-ulp distance forces the significand even.  Exponents are
unbounded, i.e. overflow and underflow - unreachable for the resize
arithmetic at any realistic image size - are not modelled. -/
def roundsTo (q r : ℚ) : Prop :=
  (q = 0 ∧ r = 0)
  ∨ ∃ (m : ℤ) (e : ℤ),
      r = (m : ℚ) * (2:ℚ)^e
      ∧ (2:ℤ)^52 ≤ m ∧ m ≤ (2:ℤ)^53
      ∧ (2:ℚ)^52 * (2:ℚ)^e ≤ q
      ∧ q < (2:ℚ)^53 * (2:ℚ)^e
      ∧ |q - r| ≤ (2:ℚ)^e / 2
      ∧ (|q - r| = (2:ℚ)^e / 2 → 2 ∣ m)

/-- Image preprocessing (app.py lines 143-148) under IEEE-754 double
semantics: when the larger dimension exceeds 1000, Python computes
`ratio = 1000 / max(size)` (one rounded float division), then for each
dimension `int(dim * ratio)` (one rounded multiplication followed by
truncation - floor, since the values are non-negative); otherwise the
image is left unchanged. -/
def resize64 (w h : Nat) (out : Nat × Nat) : Prop :=
  if 1000 < max w h then
    ∃ ratio pw ph : ℚ,
      roundsTo (1000 / ((max w h : ℕ) : ℚ)) ratio
      ∧ roundsTo ((w : ℚ) * ratio) pw
      ∧ roundsTo ((h : ℚ) * ratio) ph
      ∧ out = ((⌊pw⌋).toNat, (⌊ph⌋).toNat)
  else out = (w, h)

/-- Descending-score relation used to state sortedness of results. -/
def scoreGe (a b : Candidate) : Prop := b.score ≤ a.score

/-- Answer text of a raw result under the defaulting of app.py line 164
(`res.get('answer', '')`), before trimming. -/
def itemAnswer : RawItem → List Char
  | RawItem.dictItem _ a _ => a.getD []
  | RawItem.nonDict _ => []

/-- Score of a raw result under the defaulting of app.py line 165
(`res.get('score', 0)`). -/
def itemScore : RawItem → ℚ
  | RawItem.dictItem _ _ s => s.getD 0
  | RawItem.nonDict _ => 0

/-- Two-page document for the C1 counterexample: page 1 returns a
candidate of score 0.9 followed by one of score 0.02, page 2 returns
nothing. -/
def c1cexResponses : List Response :=
  [Response.many [RawItem.dictItem true (some [ 'a' ]) (some (Rat.divInt 9 10)),
                  RawItem.dictItem true (some [ 'b' ]) (some (Rat.divInt 1 50))],
   Response.many []]

/-- One-page document whose single candidate has score 0.9. -/
def c1wResponses : List Response :=
  [Response.many [RawItem.dictItem true (some [ 'a' ]) (some (Rat.divInt 9 10))]]

/-- One-page document whose single candidate has score 0.5. -/
def c4wResponses : List Response :=
  [Response.many [RawItem.dictItem true (some [ 'a' ]) (some (Rat.divInt 1 2))]]

/-- Two-page document whose first page fails. -/
def c6wResponses : List Response :=
  [Response.failure,
   Response.many [RawItem.dictItem true (some [ 'a' ]) (some (Rat.divInt 1 2))]]

/-- The inclusion threshold is the rational 0.01. -/
lemma inclusionThreshold_eq : inclusionThreshold = (1 : ℚ)/100 := by
  norm_num [inclusionThreshold, Rat.divInt_eq_div]

/-- The stop threshold is the rational 0.05. -/
lemma stopThreshold_eq : stopThreshold = (1 : ℚ)/20 := by
  norm_num [stopThreshold, Rat.divInt_eq_div]

lemma countCalls_append (a b : List Event) :
    countCalls (a ++ b) = countCalls a + countCalls b := by
  simp [countCalls, List.filter_append]

lemma dropWhile_dropWhile (p : Char → Bool) (l : List Char) :
    List.dropWhile p (List.dropWhile p l) = List.dropWhile p l := by
  induction l with
  | nil => rfl
  | cons a t ih =>
      by_cases h : p a
      · simp [List.dropWhile_cons, h, ih]
      · simp [List.dropWhile_cons, h]

lemma dropWhile_eq_self_of_append (p : Char → Bool) (l t : List Char)
    (h : List.dropWhile p (l ++ t) = l ++ t) : List.dropWhile p l = l := by
  cases l with
  | nil => rfl
  | cons a m =>
      have ha : p a = false := by
        by_cases hpa : p a
        · exfalso
          rw [List.cons_append, List.dropWhile_cons, if_pos hpa] at h
          have h1 : (List.dropWhile p (m ++ t)).length ≤ (m ++ t).length :=
            (List.dropWhile_sublist p).length_le
          have h2 := congrArg List.length h
          simp [List.length_append] at h1 h2
          omega
        · simpa using hpa
      rw [List.dropWhile_cons, if_neg (by simp [ha])]

lemma dropTrail_append_eq (l : List Char) :
    dropTrail l ++ (l.reverse.takeWhile wsChar).reverse = l := by
  rw [dropTrail, ← List.reverse_append, List.takeWhile_append_dropWhile,
    List.reverse_reverse]

lemma dropWhile_dropTrail (l : List Char) (h : List.dropWhile wsChar l = l) :
    List.dropWhile wsChar (dropTrail l) = dropTrail l := by
  apply dropWhile_eq_self_of_append wsChar (dropTrail l)
    ((l.reverse.takeWhile wsChar).reverse)
  rw [dropTrail_append_eq, h]

lemma dropTrail_idem (l : List Char) : dropTrail (dropTrail l) = dropTrail l := by
  simp [dropTrail, List.reverse_reverse, dropWhile_dropWhile]

/-- Trimming is idempotent, so a stored (already trimmed) answer trims to
itself. -/
lemma trimChars_idem (l : List Char) : trimChars (trimChars l) = trimChars l := by
  have h1 : List.dropWhile wsChar (l.dropWhile wsChar) = l.dropWhile wsChar :=
    dropWhile_dropWhile wsChar l
  rw [trimChars, trimChars, dropWhile_dropTrail _ h1, dropTrail_idem]

/-- Anything the filter keeps carries the page number of the page being
processed, a score above the inclusion threshold, and a non-empty trimmed
answer. -/
lemma processItem_eq_some (i : Nat) (it : RawItem) (c : Candidate)
    (h : processItem i it = some c) :
    c.page = i + 1 ∧ (1 : ℚ)/100 < c.score ∧ c.answer ≠ []
    ∧ trimChars c.answer = c.answer := by
  cases it with
  | nonDict t => simp [processItem] at h
  | dictItem t a s =>
      cases t with
      | false => simp [processItem] at h
      | true =>
          simp only [processItem] at h
          split at h


          · rename_i hcond
            rw [Option.some.injEq] at h
            subst h
            exact ⟨rfl, inclusionThreshold_eq ▸ hcond.1, hcond.2, trimChars_idem _⟩
          · exact absurd h (by simp)

/-- Invariant satisfied by every candidate the scan can accumulate. -/
lemma accSpec_mem (l : List Response) :
    ∀ (i : Nat) (c : Candidate), c ∈ accSpec i l →
      trimChars c.answer = c.answer ∧ c.answer ≠ []
      ∧ (1 : ℚ)/100 < c.score ∧ i + 1 ≤ c.page ∧ c.page ≤ i + l.length := by
  induction l with
  | nil => intro i c hc; simp [accSpec] at hc
  | cons r rs ih =>
      intro i c hc
      simp only [accSpec, pageCandidates] at hc
      rcases List.mem_append.mp hc with h | h
      · rcases List.mem_filterMap.mp h with ⟨it, hit, hpi⟩
        obtain ⟨hp, hs, hne, htr⟩ := processItem_eq_some i it c hpi
        refine ⟨htr, hne, hs, by omega, ?_⟩
        simp only [List.length_cons]
        omega
      · obtain ⟨htr, hne, hs, h1, h2⟩ := ih (i+1) c h
        refine ⟨htr, hne, hs, by omega, ?_⟩
        simp only [List.length_cons]
        omega

lemma countCalls_pageBlock (total i : Nat) (r : Response) :
    countCalls (pageBlock total i r) = 1 := by
  by_cases hr : r = Response.failure <;>
    simp [pageBlock, hr, countCalls, isCall, List.filter]

lemma countCalls_blockList (total : Nat) (l : List Response) :
    ∀ i, countCalls (blockList total i l) = l.length := by
  induction l with
  | nil => intro i; simp [blockList, countCalls]
  | cons r rs ih =>
      intro i
      simp [blockList, countCalls_append, countCalls_pageBlock, ih]
      omega

lemma pageError_pageBlock (total i p : Nat) (r : Response) :
    Event.pageError p ∈ pageBlock total i r ↔ r = Response.failure ∧ p = i + 1 := by
  by_cases hr : r = Response.failure <;> simp [pageBlock, hr]

/-- A per-page failure warning for page `p` appears in the trace of a run
over `l` exactly when the corresponding response is a failure. -/
lemma pageError_blockList (total : Nat) (l : List Response) :
    ∀ (i p : Nat), (Event.pageError p ∈ blockList total i l
      ↔ ∃ j, l[j]? = some Response.failure ∧ p = i + j + 1) := by
  induction l with
  | nil => intro i p; simp [blockList]
  | cons r rs ih =>
      intro i p
      simp only [blockList, List.mem_append, pageError_pageBlock, ih]
      constructor
      · rintro (⟨hr, hp⟩ | ⟨j, hj, hp⟩)
        · exact ⟨0, by simp [hr], by omega⟩
        · exact ⟨j+1, by simpa using hj, by omega⟩
      · rintro ⟨j, hj, hp⟩
        cases j with
        | zero =>
            left
            refine ⟨by simpa using hj, by omega⟩
        | succ j' =>
            right
            exact ⟨j', by simpa using hj, by omega⟩

/-- Each processed page contributes the two-event block progress-then-call
(followed by its failure warning if it failed): progress for page `j` is
always emitted, and emitted immediately before that page's client call. -/
lemma progress_call_adjacent (total : Nat) (l : List Response) :
    ∀ (i j : Nat), j < l.length →
      ∃ s t, blockList total i l
        = s ++ [Event.progress (i+j+1) total, Event.call (i+j+1)] ++ t := by
  induction l with
  | nil => intro i j hj; simp at hj
  | cons r rs ih =>
      intro i j hj
      cases j with
      | zero =>
          refine ⟨[], (if r = Response.failure then [Event.pageError (i+1)] else [])
            ++ blockList total (i+1) rs, ?_⟩
          simp [blockList, pageBlock]
      | succ j' =>
          obtain ⟨s, t, hst⟩ := ih (i+1) j' (by simp at hj; omega)
          refine ⟨pageBlock total i r ++ s, t, ?_⟩
          rw [blockList, hst]
          have harith : i + 1 + j' + 1 = i + (j' + 1) + 1 := by omega
          rw [harith] at hst ⊢
          simp [List.append_assoc]

lemma quickBreakB_ne_nil (acc : List Candidate) (h : quickBreakB acc = true) :
    acc ≠ [] := by
  intro hnil
  subst hnil
  simp [quickBreakB] at h

/-- Shifting the stop condition across the first page of the list. -/
lemma brkAt_cons_succ (i : Nat) (acc : List Candidate) (r : Response)
    (rs : List Response) (j : Nat) (hj : 1 ≤ j) :
    brkAt i acc (r :: rs) (j+1)
      ↔ brkAt (i+1) (acc ++ pageCandidates i (responseItems r)) rs j := by
  obtain ⟨j', rfl⟩ : ∃ j', j = j' + 1 := ⟨j - 1, by omega⟩
  simp [brkAt, accSpec, List.take_succ_cons, List.append_assoc]

/-- Characterisation of the page loop: it processes some prefix of the
remaining pages (all of them in Thorough mode), appends exactly that
prefix's candidates to the accumulator and that prefix's event blocks to
the trace, and stops inside the prefix only at the first point where the
Quick-mode stop condition fires. -/
theorem stepPages_spec (mode : SearchMode) (total : Nat) (rs : List Response) :
    ∀ (i : Nat) (acc : List Candidate) (tr : List Event),
    ∃ k, k ≤ rs.length
      ∧ stepPages mode total rs i acc tr
          = (acc ++ accSpec i (rs.take k), tr ++ blockList total i (rs.take k))
      ∧ (mode = SearchMode.thorough → k = rs.length)
      ∧ (k < rs.length → 1 ≤ k ∧ mode = SearchMode.quick ∧ brkAt i acc rs k)
      ∧ (mode = SearchMode.quick → ∀ j, 1 ≤ j → j < k → ¬ brkAt i acc rs j) := by
  induction rs with
  | nil =>
      intro i acc tr
      refine ⟨0, le_refl 0, ?_, ?_, ?_, ?_⟩
      · simp [stepPages, accSpec, blockList]
      · intro _; rfl
      · intro h; simp at h
      · intro _ j hj hjk; omega
  | cons r rs ih =>
      intro i acc tr
      by_cases hr : r = Response.failure
      · subst hr
        obtain ⟨k, hk, heq, hth, hlt, hmin⟩ :=
          ih (i+1) acc (tr ++ pageBlock total i Response.failure)
        refine ⟨k+1, by simp only [List.length_cons]; omega, ?_, ?_, ?_, ?_⟩
        · simp only [stepPages, if_pos rfl]
          rw [heq]
          simp [List.take_succ_cons, accSpec, blockList, responseItems,
            pageCandidates, List.append_assoc]
        · intro h
          simp only [List.length_cons, hth h]
        · intro h
          have hk' : k < rs.length := by simp only [List.length_cons] at h; omega
          obtain ⟨h1, hq, hbrk⟩ := hlt hk'
          refine ⟨by omega, hq, ?_⟩
          rw [brkAt_cons_succ i acc _ rs k h1]
          simpa [responseItems, pageCandidates] using hbrk
        · intro hq j hj hjk
          cases j with
          | zero => omega
          | succ j' =>
              rcases Nat.eq_zero_or_pos j' with h0 | hpos
              · subst h0
                intro hb
                exact hb.1 (by simp)
              · rw [brkAt_cons_succ i acc _ rs j' hpos]
                simp only [responseItems, pageCandidates, List.filterMap_nil,
                  List.append_nil]
                exact hmin hq j' hpos (by omega)
      · by_cases hb : mode = SearchMode.quick
          ∧ quickBreakB (acc ++ pageCandidates i (responseItems r)) = true
        · refine ⟨1, by simp only [List.length_cons]; omega, ?_, ?_, ?_, ?_⟩
          · simp only [stepPages, if_neg hr, if_pos hb]
            simp [List.take_succ_cons, accSpec, blockList]
          · intro h
            rw [h] at hb
            exact absurd hb.1 (by simp)
          · intro h
            refine ⟨le_refl 1, hb.1, ?_, ?_⟩
            · simpa using hr
            · simpa [accSpec, List.take_succ_cons, List.append_assoc] using hb.2
          · intro _ j hj hjk
            omega
        · obtain ⟨k, hk, heq, hth, hlt, hmin⟩ :=
            ih (i+1) (acc ++ pageCandidates i (responseItems r))
              (tr ++ pageBlock total i r)
          refine ⟨k+1, by simp only [List.length_cons]; omega, ?_, ?_, ?_, ?_⟩
          · simp only [stepPages, if_neg hr, if_neg hb]
            rw [heq]
            simp [List.take_succ_cons, accSpec, blockList, List.append_assoc]
          · intro h
            simp only [List.length_cons, hth h]
          · intro h
            have hk' : k < rs.length := by simp only [List.length_cons] at h; omega
            obtain ⟨h1, hq, hbrk⟩ := hlt hk'
            exact ⟨by omega, hq, (brkAt_cons_succ i acc r rs k h1).mpr hbrk⟩
          · intro hq j hj hjk
            cases j with
            | zero => omega
            | succ j' =>
                rcases Nat.eq_zero_or_pos j' with h0 | hpos
                · subst h0
                  intro hbr
                  have hqb : quickBreakB (acc ++ pageCandidates i (responseItems r))
                      = true := by
                    simpa [accSpec, List.take_succ_cons, List.append_assoc]
                      using hbr.2
                  exact hb ⟨hq, hqb⟩
                · rw [brkAt_cons_succ i acc r rs j' hpos]
                  exact hmin hq j' hpos (by omega)

/-- The characterisation at the top level of one scan. -/
theorem runSearch_spec (mode : SearchMode) (responses : List Response) :
    ∃ k, k ≤ responses.length
      ∧ runSearch mode responses
          = (accSpec 0 (responses.take k),
             blockList responses.length 0 (responses.take k))
      ∧ countCalls (runSearch mode responses).2 = k
      ∧ (mode = SearchMode.thorough → k = responses.length)
      ∧ (k < responses.length
          → 1 ≤ k ∧ mode = SearchMode.quick ∧ brkAt 0 [] responses k)
      ∧ (mode = SearchMode.quick
          → ∀ j, 1 ≤ j → j < k → ¬ brkAt 0 [] responses j) := by
  obtain ⟨k, hk, heq, hth, hlt, hmin⟩ :=
    stepPages_spec mode responses.length responses 0 [] []
  have heq' : runSearch mode responses
      = (accSpec 0 (responses.take k),
         blockList responses.length 0 (responses.take k)) := by
    rw [runSearch, heq]
    simp
  refine ⟨k, hk, heq', ?_, hth, hlt, hmin⟩
  rw [heq']
  simp [countCalls_blockList, List.length_take, Nat.min_eq_left hk]

lemma insertDesc_perm (c : Candidate) (l : List Candidate) :
    List.Perm (insertDesc c l) (c :: l) := by
  induction l with
  | nil => simp [insertDesc]
  | cons d ds ih =>
      by_cases h : d.score ≤ c.score
      · simp [insertDesc, h]
      · rw [insertDesc, if_neg h]
        exact (List.Perm.cons d ih).trans (List.Perm.swap c d ds)

lemma sortDesc_perm (l : List Candidate) : List.Perm (sortDesc l) l := by
  induction l with
  | nil => simp [sortDesc]
  | cons c cs ih =>
      exact (insertDesc_perm c (sortDesc cs)).trans (List.Perm.cons c ih)

lemma mem_sortDesc (c : Candidate) (l : List Candidate) :
    c ∈ sortDesc l ↔ c ∈ l :=
  (sortDesc_perm l).mem_iff

lemma pairwise_insertDesc (c : Candidate) (l : List Candidate)
    (h : List.Pairwise scoreGe l) : List.Pairwise scoreGe (insertDesc c l) := by
  induction l with
  | nil => simp [insertDesc, List.pairwise_singleton]
  | cons d ds ih =>
      rcases List.pairwise_cons.mp h with ⟨hd, hds⟩
      by_cases hc : d.score ≤ c.score
      · rw [insertDesc, if_pos hc]
        refine List.pairwise_cons.mpr ⟨?_, h⟩
        intro x hx
        rcases List.mem_cons.mp hx with rfl | hx
        · exact hc
        · exact le_trans (hd x hx) hc
      · rw [insertDesc, if_neg hc]
        refine List.pairwise_cons.mpr ⟨?_, ih hds⟩
        intro x hx
        rcases List.mem_cons.mp ((insertDesc_perm c ds).mem_iff.mp hx) with rfl | hx
        · exact le_of_lt (lt_of_not_le hc)
        · exact hd x hx

/-- The sorted result is pairwise non-increasing in score. -/
lemma pairwise_sortDesc (l : List Candidate) :
    List.Pairwise scoreGe (sortDesc l) := by
  induction l with
  | nil => simp [sortDesc]
  | cons c cs ih => exact pairwise_insertDesc c (sortDesc cs) ih

lemma filter_insertDesc (s : ℚ) (c : Candidate) (l : List Candidate) :
    (insertDesc c l).filter (fun x => decide (x.score = s))
      = (c :: l).filter (fun x => decide (x.score = s)) := by
  induction l with
  | nil => rfl
  | cons d ds ih =>
      by_cases hc : d.score ≤ c.score
      · rw [insertDesc, if_pos hc]
      · rw [insertDesc, if_neg hc]
        have hlt : c.score < d.score := lt_of_not_le hc
        by_cases hd : d.score = s
        · have hcs : ¬ c.score = s := by
            intro hcse
            rw [hcse, ← hd] at hlt
            exact lt_irrefl _ hlt
          simp only [List.filter_cons, ih]
          simp [hd, hcs]
        · by_cases hcs : c.score = s
          · simp only [List.filter_cons, ih]
            simp [hd, hcs]
          · simp only [List.filter_cons, ih]
            simp [hd, hcs]

/-- Stability: the sort never reorders candidates of equal score, so the
candidates of each fixed score keep their accumulator (discovery) order. -/
lemma filter_sortDesc (s : ℚ) (l : List Candidate) :
    (sortDesc l).filter (fun x => decide (x.score = s))
      = l.filter (fun x => decide (x.score = s)) := by
  induction l with
  | nil => rfl
  | cons c cs ih =>
      rw [sortDesc, filter_insertDesc]
      simp only [List.filter_cons, ih]

/-- A rounded result differs from a positive operand by at most one part
in 2^53: the half-ulp bound, divided by the binade lower bound. -/
lemma roundsTo_abs_le (q r : ℚ) (hq : 0 < q) (h : roundsTo q r) :
    |r - q| ≤ q / 2^53 := by
  rcases h with ⟨hq0, _⟩ | ⟨m, e, _, _, _, hlo, _, hnear, _⟩
  · exact absurd hq0 (ne_of_gt hq)
  · have key : (2:ℚ)^e / 2 ≤ q / 2^53 := by
      calc (2:ℚ)^e / 2 = (2:ℚ)^52 * (2:ℚ)^e / 2^53 := by
            rw [show ((2:ℚ)^53) = 2^52 * 2 by norm_num,
              mul_div_mul_left _ _ (show ((2:ℚ)^52) ≠ 0 by norm_num)]
        _ ≤ q / 2^53 := by gcongr
    calc |r - q| = |q - r| := abs_sub_comm r q
      _ ≤ (2:ℚ)^e / 2 := hnear
      _ ≤ q / 2^53 := key

lemma roundsTo_bounds (q r : ℚ) (hq : 0 < q) (h : roundsTo q r) :
    q - q / 2^53 ≤ r ∧ r ≤ q + q / 2^53 := by
  have hab := abs_le.mp (roundsTo_abs_le q r hq h)
  constructor <;> linarith [hab.1, hab.2]

/-- Binades partition the positive rationals: the exponent witness in
`roundsTo` is determined by the operand. -/
lemma binade_eq (q : ℚ) (e e' : ℤ)
    (hlo : (2:ℚ)^52 * (2:ℚ)^e ≤ q) (hhi : q < (2:ℚ)^53 * (2:ℚ)^e)
    (hlo' : (2:ℚ)^52 * (2:ℚ)^e' ≤ q) (hhi' : q < (2:ℚ)^53 * (2:ℚ)^e') :
    e = e' := by
  have key : ∀ a b : ℤ, a < b → q < (2:ℚ)^53 * (2:ℚ)^a
      → (2:ℚ)^52 * (2:ℚ)^b ≤ q → False := by
    intro a b hab h1 h2
    have hle : (2:ℚ)^(a+1) ≤ (2:ℚ)^b :=
      zpow_le_zpow_right₀ (by norm_num) (by omega)
    have heq : (2:ℚ)^53 * (2:ℚ)^a = (2:ℚ)^52 * (2:ℚ)^(a+1) := by
      rw [zpow_add_one₀ (show (2:ℚ) ≠ 0 by norm_num)]
      rw [show ((2:ℚ)^53) = 2^52 * 2 by norm_num]
      ring
    have hmono : (2:ℚ)^52 * (2:ℚ)^(a+1) ≤ (2:ℚ)^52 * (2:ℚ)^b :=
      mul_le_mul_of_nonneg_left hle (by positivity)
    linarith
  rcases lt_trichotomy e e' with h | h | h
  · exact (key e e' h hhi hlo').elim
  · exact h
  · exact (key e' e h hhi' hlo).elim

/-- IEEE rounding is deterministic: `roundsTo` pairs a positive operand
with exactly one result.  Two candidates in the same binade within half an
ulp of the operand are at most one significand step apart, and being
exactly one step apart forces an exact tie on both sides, which the
ties-to-even clause resolves to the same (even) significand. -/
lemma roundsTo_unique (q r r' : ℚ) (hq : 0 < q)
    (h : roundsTo q r) (h' : roundsTo q r') : r = r' := by
  rcases h with ⟨hq0, _⟩ | ⟨m, e, hr, _, _, hlo, hhi, hnear, htie⟩
  · exact absurd hq0 (ne_of_gt hq)
  rcases h' with ⟨hq0, _⟩ | ⟨m', e', hr', _, _, hlo', hhi', hnear', htie'⟩
  · exact absurd hq0 (ne_of_gt hq)
  have hee : e = e' := binade_eq q e e' hlo hhi hlo' hhi'
  subst hee
  have hpos : (0:ℚ) < (2:ℚ)^e := zpow_pos (by norm_num) e
  have hsub : r - r' = ((m:ℚ) - (m':ℚ)) * (2:ℚ)^e := by
    rw [hr, hr']
    ring
  have hrr : |r - r'| ≤ (2:ℚ)^e := by
    have h1 := abs_sub_le r q r'
    have h2 : |r - q| = |q - r| := abs_sub_comm r q
    linarith [hnear, hnear']
  have habs : |(m:ℚ) - (m':ℚ)| ≤ 1 := by
    rw [hsub, abs_mul, abs_of_pos hpos] at hrr
    exact le_of_mul_le_mul_right (by linarith) hpos
  have hmm : |m - m'| ≤ (1:ℤ) := by
    have hcast : |((m - m' : ℤ) : ℚ)| ≤ 1 := by
      push_cast
      exact habs
    exact_mod_cast hcast
  obtain ⟨hb1, hb2⟩ := abs_le.mp hmm
  rcases (by omega : m' = m ∨ m' = m + 1 ∨ m' = m - 1) with hc | hc | hc
  · rw [hr, hr', hc]
  · exfalso
    subst hc
    have hr2 : r' = r + (2:ℚ)^e := by
      rw [hr', hr]
      push_cast
      ring
    obtain ⟨hn1, hn2⟩ := abs_le.mp hnear
    obtain ⟨hn1', hn2'⟩ := abs_le.mp hnear'
    have hqr : q - r = (2:ℚ)^e / 2 := by
      have hx : q - r' = q - r - (2:ℚ)^e := by
        rw [hr2]
        ring
      linarith
    have htq : |q - r| = (2:ℚ)^e / 2 := by
      rw [hqr]
      exact abs_of_nonneg (by positivity)
    have htq' : |q - r'| = (2:ℚ)^e / 2 := by
      have hx : q - r' = -((2:ℚ)^e / 2) := by
        rw [hr2]
        linarith
      rw [hx, abs_neg]
      exact abs_of_nonneg (by positivity)
    have hd1 := htie htq
    have hd2 := htie' htq'
    omega
  · exfalso
    subst hc
    have hr2 : r' = r - (2:ℚ)^e := by
      rw [hr', hr]
      push_cast
      ring
    obtain ⟨hn1, hn2⟩ := abs_le.mp hnear
    obtain ⟨hn1', hn2'⟩ := abs_le.mp hnear'
    have hqr : q - r = -((2:ℚ)^e / 2) := by
      have hx : q - r' = q - r + (2:ℚ)^e := by
        rw [hr2]
        ring
      linarith
    have htq : |q - r| = (2:ℚ)^e / 2 := by
      rw [hqr, abs_neg]
      exact abs_of_nonneg (by positivity)
    have htq' : |q - r'| = (2:ℚ)^e / 2 := by
      have hx : q - r' = (2:ℚ)^e / 2 := by
        rw [hr2]
        linarith
      rw [hx]
      exact abs_of_nonneg (by positivity)
    have hd1 := htie htq
    have hd2 := htie' htq'
    omega

/-- Every resized dimension is at most 1000: the rounded ratio is at most
(1000/M)(1 + 2^-53), so each rounded product stays below 1001. -/
lemma roundsTo_component_le (d M : Nat) (ratio p : ℚ) (hM : 1000 < M)
    (hdM : d ≤ M) (hratio : roundsTo (1000 / (M : ℚ)) ratio)
    (hp : roundsTo ((d : ℚ) * ratio) p) :
    (⌊p⌋).toNat ≤ 1000 := by
  have hM0 : (0:ℚ) < (M:ℚ) := by
    have h0 : 0 < M := by omega
    exact_mod_cast h0
  have hq0 : (0:ℚ) < 1000 / (M:ℚ) := by positivity
  obtain ⟨hr1, hr2⟩ := roundsTo_bounds _ _ hq0 hratio
  rcases Nat.eq_zero_or_pos d with hd0 | hd0
  · subst hd0
    have hz : ((0:ℕ):ℚ) * ratio = 0 := by norm_num
    rcases hp with ⟨_, hp0⟩ | ⟨m, e, _, _, _, hlo, _, _, _⟩
    · rw [hp0]
      simp
    · exfalso
      rw [hz] at hlo
      have hpos : (0:ℚ) < (2:ℚ)^52 * (2:ℚ)^e := by positivity
      linarith
  · have hrpos : 0 < ratio := by
      have hlt : (1000/(M:ℚ))/2^53 < 1000/(M:ℚ) := div_lt_self hq0 (by norm_num)
      linarith
    have hqd0 : (0:ℚ) < (d:ℚ) * ratio := by
      have hdq : (0:ℚ) < (d:ℚ) := by exact_mod_cast hd0
      exact mul_pos hdq hrpos
    obtain ⟨hp1, hp2⟩ := roundsTo_bounds _ _ hqd0 hp
    have hdM' : ((d:ℚ)) ≤ (M:ℚ) := by exact_mod_cast hdM
    have hqd_le : (d:ℚ) * ratio ≤ (M:ℚ) * ratio :=
      mul_le_mul_of_nonneg_right hdM' (le_of_lt hrpos)
    have hMr : (M:ℚ) * ratio ≤ 1000 + 1000 / 2^53 := by
      have h1 : (M:ℚ) * ratio ≤ (M:ℚ) * ((1000 / (M:ℚ)) + (1000 / (M:ℚ)) / 2^53) :=
        mul_le_mul_of_nonneg_left hr2 (le_of_lt hM0)
      have h2 : (M:ℚ) * ((1000 / (M:ℚ)) + (1000 / (M:ℚ)) / 2^53)
          = 1000 + 1000 / 2^53 := by
        field_simp
        ring
      linarith
    have hdiv : ((d:ℚ) * ratio) / 2^53 ≤ ((1000:ℚ) + 1000/2^53) / 2^53 := by
      gcongr
      linarith
    have hp1001 : p < 1001 := by
      have hnum : ((1000:ℚ) + 1000/2^53) + ((1000:ℚ) + 1000/2^53)/2^53 < 1001 := by
        norm_num
      linarith
    have hfl : ⌊p⌋ < 1001 := Int.floor_lt.mpr (by exact_mod_cast hp1001)
    omega

/-- The dimension equal to the maximum resizes to floor 999 or 1000: its
rounded product lies within one part in 2^52 of 1000. -/
lemma roundsTo_component_max (M : Nat) (ratio p : ℚ) (hM : 1000 < M)
    (hratio : roundsTo (1000 / (M : ℚ)) ratio)
    (hp : roundsTo ((M : ℚ) * ratio) p) :
    999 ≤ (⌊p⌋).toNat ∧ (⌊p⌋).toNat ≤ 1000 := by
  refine ⟨?_, roundsTo_component_le M M ratio p hM (le_refl M) hratio hp⟩
  have hM0 : (0:ℚ) < (M:ℚ) := by
    have h0 : 0 < M := by omega
    exact_mod_cast h0
  have hq0 : (0:ℚ) < 1000 / (M:ℚ) := by positivity
  obtain ⟨hr1, hr2⟩ := roundsTo_bounds _ _ hq0 hratio
  have hMr_lo : 1000 - 1000/2^53 ≤ (M:ℚ) * ratio := by
    have h1 : (M:ℚ) * ((1000/(M:ℚ)) - (1000/(M:ℚ))/2^53) ≤ (M:ℚ) * ratio :=
      mul_le_mul_of_nonneg_left hr1 (le_of_lt hM0)
    have h2 : (M:ℚ) * ((1000/(M:ℚ)) - (1000/(M:ℚ))/2^53)
        = 1000 - 1000/2^53 := by
      field_simp
      ring
    linarith
  have hMr_hi : (M:ℚ) * ratio ≤ 1000 + 1000/2^53 := by
    have h1 : (M:ℚ) * ratio ≤ (M:ℚ) * ((1000/(M:ℚ)) + (1000/(M:ℚ))/2^53) :=
      mul_le_mul_of_nonneg_left hr2 (le_of_lt hM0)
    have h2 : (M:ℚ) * ((1000/(M:ℚ)) + (1000/(M:ℚ))/2^53)
        = 1000 + 1000/2^53 := by
      field_simp
      ring
    linarith
  have hq0' : (0:ℚ) < (M:ℚ) * ratio := by
    have hnum : (0:ℚ) < 1000 - 1000/2^53 := by norm_num
    linarith
  obtain ⟨hp1, hp2⟩ := roundsTo_bounds _ _ hq0' hp
  have hdiv : ((M:ℚ) * ratio) / 2^53 ≤ ((1000:ℚ) + 1000/2^53) / 2^53 := by
    gcongr
  have h999 : (999:ℚ) < p := by
    have hnum : (999:ℚ) < (1000 - 1000/2^53) - ((1000:ℚ) + 1000/2^53)/2^53 := by
      norm_num
    linarith
  have hfl : (999:ℤ) ≤ ⌊p⌋ := Int.le_floor.mpr (by exact_mod_cast le_of_lt h999)
  omega

/-- Rounding of the ratio 1000/1062: the quotient 500/531 falls in the
binade [1/2, 1) and rounds down, with remainder 259/531 of an ulp (less
than half), to the double 8481355230452911 / 2^53. -/
lemma roundsTo_ratio_1062 :
    roundsTo ((1000:ℚ) / 1062) ((8481355230452911:ℚ) * (2:ℚ)^(-53:ℤ)) := by
  have hstrict : |(1000:ℚ)/1062 - (8481355230452911:ℚ) * (2:ℚ)^(-53:ℤ)|
      < (2:ℚ)^(-53:ℤ) / 2 := by
    rw [abs_lt]
    constructor <;> norm_num
  refine Or.inr ⟨8481355230452911, -53, ?_, by norm_num, by norm_num, by norm_num,
    by norm_num, le_of_lt hstrict, fun heq => absurd heq (ne_of_lt hstrict)⟩
  push_cast
  ring

/-- Rounding of 1062 times the rounded ratio: the exact product is
1000 - 259/2^52, strictly more than half an ulp (2^-44) below 1000, so it
rounds down to 1000 - 2^-43 - strictly below 1000. -/
lemma roundsTo_prod_w_1062 :
    roundsTo ((1062:ℚ) * ((8481355230452911:ℚ) * (2:ℚ)^(-53:ℤ)))
      ((8796093022207999:ℚ) * (2:ℚ)^(-43:ℤ)) := by
  have hstrict : |(1062:ℚ) * ((8481355230452911:ℚ) * (2:ℚ)^(-53:ℤ))
      - (8796093022207999:ℚ) * (2:ℚ)^(-43:ℤ)| < (2:ℚ)^(-43:ℤ) / 2 := by
    rw [abs_lt]
    constructor <;> norm_num
  refine Or.inr ⟨8796093022207999, -43, ?_, by norm_num, by norm_num, by norm_num,
    by norm_num, le_of_lt hstrict, fun heq => absurd heq (ne_of_lt hstrict)⟩
  push_cast
  ring

/-- Rounding of 531 times the rounded ratio: the exact product is
500 - 259/2^53, which rounds down to 500 - 2^-44. -/
lemma roundsTo_prod_h_1062 :
    roundsTo ((531:ℚ) * ((8481355230452911:ℚ) * (2:ℚ)^(-53:ℤ)))
      ((8796093022207999:ℚ) * (2:ℚ)^(-44:ℤ)) := by
  have hstrict : |(531:ℚ) * ((8481355230452911:ℚ) * (2:ℚ)^(-53:ℤ))
      - (8796093022207999:ℚ) * (2:ℚ)^(-44:ℤ)| < (2:ℚ)^(-44:ℤ) / 2 := by
    rw [abs_lt]
    constructor <;> norm_num
  refine Or.inr ⟨8796093022207999, -44, ?_, by norm_num, by norm_num, by norm_num,
    by norm_num, le_of_lt hstrict, fun heq => absurd heq (ne_of_lt hstrict)⟩
  push_cast
  ring

lemma floor_prod_w_1062 :
    (⌊(8796093022207999:ℚ) * (2:ℚ)^(-43:ℤ)⌋).toNat = 999 := by
  have hfl : ⌊(8796093022207999:ℚ) * (2:ℚ)^(-43:ℤ)⌋ = 999 := by
    rw [Int.floor_eq_iff]
    constructor <;> norm_num
  rw [hfl]
  rfl

lemma floor_prod_h_1062 :
    (⌊(8796093022207999:ℚ) * (2:ℚ)^(-44:ℤ)⌋).toNat = 499 := by
  have hfl : ⌊(8796093022207999:ℚ) * (2:ℚ)^(-44:ℤ)⌋ = 499 := by
    rw [Int.floor_eq_iff]
    constructor <;> norm_num
  rw [hfl]
  rfl

/-- The resize code on a 1062 x 531 page produces (999, 499) - the larger
dimension comes out 999, not 1000.  By `roundsTo_unique` the rounding
relation is deterministic, so (see `resize64_cex_unique`) this is the one
execution every IEEE-754 machine performs, CPython included. -/
lemma resize64_cex : resize64 1062 531 (999, 499) := by
  rw [resize64, if_pos (by decide)]
  refine ⟨(8481355230452911:ℚ) * (2:ℚ)^(-53:ℤ),
          (8796093022207999:ℚ) * (2:ℚ)^(-43:ℤ),
          (8796093022207999:ℚ) * (2:ℚ)^(-44:ℤ), ?_, ?_, ?_, ?_⟩
  · have hmax : ((max 1062 531 : ℕ) : ℚ) = 1062 := by norm_num
    rw [hmax]
    exact roundsTo_ratio_1062
  · have hc : ((1062:ℕ):ℚ) = 1062 := by norm_num
    rw [hc]
    exact roundsTo_prod_w_1062
  · have hc : ((531:ℕ):ℚ) = 531 := by norm_num
    rw [hc]
    exact roundsTo_prod_h_1062
  · rw [floor_prod_w_1062, floor_prod_h_1062]

/-- The 1062 x 531 resize outcome is unique: every rounding-consistent
execution yields (999, 499). -/
lemma resize64_cex_unique (out : Nat × Nat) (h : resize64 1062 531 out) :
    out = (999, 499) := by
  rw [resize64, if_pos (by decide)] at h
  obtain ⟨ratio, pw, ph, hratio, hpw, hph, hout⟩ := h
  have hmax : ((max 1062 531 : ℕ) : ℚ) = 1062 := by norm_num
  rw [hmax] at hratio
  have hr : ratio = (8481355230452911:ℚ) * (2:ℚ)^(-53:ℤ) :=
    roundsTo_unique _ _ _ (by norm_num) hratio roundsTo_ratio_1062
  subst hr
  have hcw : ((1062:ℕ):ℚ) = 1062 := by norm_num
  rw [hcw] at hpw
  have hw : pw = (8796093022207999:ℚ) * (2:ℚ)^(-43:ℤ) :=
    roundsTo_unique _ _ _ (by norm_num) hpw roundsTo_prod_w_1062
  subst hw
  have hch : ((531:ℕ):ℚ) = 531 := by norm_num
  rw [hch] at hph
  have hh : ph = (8796093022207999:ℚ) * (2:ℚ)^(-44:ℤ) :=
    roundsTo_unique _ _ _ (by norm_num) hph roundsTo_prod_h_1062
  subst hh
  rw [hout, floor_prod_w_1062, floor_prod_h_1062]

/-- Claim C1, counterexample.  The claim says: in Quick mode, if page k is
the first page whose client call produces a candidate with score > 0.05
and non-empty trimmed text, exactly k calls are made.  Here page 1 (of 2)
produces such a candidate (score 0.9), so the claim demands exactly 1
call; but the code checks only the most recently appended candidate
(`all_answers[-1]`), whose score is 0.02, so both pages are scanned. -/
theorem C1_counterexample :
    (∃ it, it ∈ responseItems (c1cexResponses.getD 0 Response.failure)
        ∧ (1 : ℚ)/20 < itemScore it ∧ trimChars (itemAnswer it) ≠ [])
    ∧ countCalls (runSearch SearchMode.quick c1cexResponses).2 = 2
    ∧ countCalls (runSearch SearchMode.quick c1cexResponses).2 ≠ 1 := by
  refine ⟨⟨RawItem.dictItem true (some [ 'a' ]) (some (Rat.divInt 9 10)),
    by decide, ?_, by decide⟩, by decide, by decide⟩
  norm_num [itemScore, Rat.divInt_eq_div]

/-- Claim C1, amended: in Quick mode, if page k (1 ≤ k ≤ N) is the first
page after whose successful processing the accumulator is non-empty and
its most recently appended candidate's score exceeds 0.05 (the condition
`brkAt`), then the engine invokes the Inference Client exactly k times and
no more. -/
theorem C1_quick_stops_at_first_break (responses : List Response) (k : Nat)
    (hk1 : 1 ≤ k) (hk2 : k ≤ responses.length)
    (hfirst : ∀ j, 1 ≤ j → j < k → ¬ brkAt 0 [] responses j)
    (hstop : brkAt 0 [] responses k) :
    countCalls (runSearch SearchMode.quick responses).2 = k := by
  obtain ⟨k0, hk0, heq0, hcalls0, hth0, hlt0, hmin0⟩ :=
    runSearch_spec SearchMode.quick responses
  have hkk : k0 = k := by
    rcases lt_trichotomy k0 k with hlt | heqk | hgt
    · obtain ⟨h1, _, hbrk0⟩ := hlt0 (lt_of_lt_of_le hlt hk2)
      exact absurd hbrk0 (hfirst k0 h1 hlt)
    · exact heqk
    · exact absurd hstop (hmin0 rfl k hk1 hgt)
  rw [hcalls0, hkk]

/-- Claim C1 (amended), witness: a one-page document whose only candidate
scores 0.9 stops the Quick scan after exactly one call. -/
theorem C1_witness :
    countCalls (runSearch SearchMode.quick c1wResponses).2 = 1 :=
  C1_quick_stops_at_first_break c1wResponses 1 (le_refl 1) (by decide)
    (fun j hj hjk => absurd (Nat.lt_of_lt_of_le hjk hj) (Nat.lt_irrefl j))
    ⟨by decide, by decide⟩

/-- Claim C2: in Thorough mode, for every N-page document, assuming no
Inference Client call fails, the engine invokes the client exactly N
times, regardless of the scores returned. -/
theorem C2_thorough_calls (responses : List Response)
    (hnf : ∀ r, r ∈ responses → r ≠ Response.failure) :
    countCalls (runSearch SearchMode.thorough responses).2
      = responses.length := by
  obtain ⟨k, _, _, hcalls, hth, _, _⟩ := runSearch_spec SearchMode.thorough responses
  rw [hcalls, hth rfl]

/-- Claim C2, witness at a one-page document. -/
theorem C2_witness :
    countCalls (runSearch SearchMode.thorough [Response.many []]).2 = 1 :=
  C2_thorough_calls [Response.many []] (by decide)

/-- Claim C3: the final SearchResult is sorted by score in descending
order, and candidates of any fixed score appear in exactly the order in
which they were appended to the accumulator (stable sort). -/
theorem C3_sorted_stable (mode : SearchMode) (responses : List Response) :
    List.Pairwise scoreGe (sortDesc (runSearch mode responses).1)
    ∧ ∀ s : ℚ,
        (sortDesc (runSearch mode responses).1).filter
            (fun c => decide (c.score = s))
          = (runSearch mode responses).1.filter (fun c => decide (c.score = s)) :=
  ⟨pairwise_sortDesc _, fun s => filter_sortDesc s _⟩

/-- Claim C4: every candidate in the accumulator (hence in the sorted
SearchResult) has non-empty trimmed answer text, score > 0.01 and a page
index between 1 and N.  Since the accumulator after any prefix of the scan
equals the final accumulator of a run on that prefix of pages,
quantifying over all response lists covers every intermediate state. -/
theorem C4_candidate_invariants (mode : SearchMode) (responses : List Response)
    (c : Candidate)
    (hc : c ∈ sortDesc (runSearch mode responses).1
        ∨ c ∈ (runSearch mode responses).1) :
    trimChars c.answer = c.answer ∧ c.answer ≠ []
    ∧ (1 : ℚ)/100 < c.score ∧ 1 ≤ c.page ∧ c.page ≤ responses.length := by
  have hc' : c ∈ (runSearch mode responses).1 := by
    rcases hc with h | h
    · exact (mem_sortDesc c _).mp h
    · exact h
  obtain ⟨k, hk, heq, _, _, _, _⟩ := runSearch_spec mode responses
  have hacc : (runSearch mode responses).1 = accSpec 0 (responses.take k) := by
    rw [heq]
  rw [hacc] at hc'
  obtain ⟨htr, hne, hs, h1, h2⟩ := accSpec_mem (responses.take k) 0 c hc'
  have hlen : (responses.take k).length ≤ responses.length := by
    rw [List.length_take]
    exact min_le_right _ _
  exact ⟨htr, hne, hs, by omega, by omega⟩

/-- Claim C4, witness: the single kept candidate of a one-page run. -/
theorem C4_witness :
    trimChars [ 'a' ] = [ 'a' ] ∧ ([ 'a' ] : List Char) ≠ []
    ∧ (1 : ℚ)/100 < Rat.divInt 1 2 ∧ 1 ≤ 1 ∧ 1 ≤ c4wResponses.length :=
  C4_candidate_invariants SearchMode.quick c4wResponses
    (Candidate.mk 1 [ 'a' ] (Rat.divInt 1 2)) (Or.inr (by decide))

/-- Claim C5, counterexample.  The claim says a question consisting only
of whitespace triggers the warning and zero client calls.  The code only
rejects a falsy (empty) string (`if question:`), so the one-space question
is searched: one client call is made and no warning is produced. -/
theorem C5_counterexample :
    (∀ c, c ∈ ([ ' ' ] : List Char) → c.isWhitespace = true)
    ∧ runApp [ ' ' ] SearchMode.thorough [Response.many []]
        ≠ AppResult.emptyQuestionWarning
    ∧ appCalls (runApp [ ' ' ] SearchMode.thorough [Response.many []]) = 1 := by
  refine ⟨by decide, by decide, by decide⟩

/-- Claim C5, amended: exactly the empty question string is treated as
absent - the caller is warned and no client call is made - while any
non-empty question (including whitespace-only ones) starts the search. -/
theorem C5_empty_question_only (q : List Char) (mode : SearchMode)
    (responses : List Response) :
    (runApp q mode responses = AppResult.emptyQuestionWarning ↔ q = [])
    ∧ appCalls (runApp [] mode responses) = 0 := by
  constructor
  · constructor
    · intro h
      by_contra hq
      simp only [runApp, if_neg hq] at h
      revert h
      split <;> intro h <;> exact absurd h (by simp)
    · intro h
      subst h
      rfl
  · rfl

/-- Claim C5 (amended), witness: the empty question is rejected. -/
theorem C5_witness :
    runApp [] SearchMode.quick [] = AppResult.emptyQuestionWarning :=
  (C5_empty_question_only [] SearchMode.quick []).1.mpr rfl

/-- Claim C6: in Thorough mode a page failure never shortens the scan
(exactly N calls are always made), the accumulator is exactly the
concatenation of the per-page kept candidates - so a failing page
contributes nothing and other pages' contributions are unchanged - and a
per-page failure warning appears for precisely the failing pages. -/
theorem C6_failure_isolation (responses : List Response) :
    countCalls (runSearch SearchMode.thorough responses).2 = responses.length
    ∧ (runSearch SearchMode.thorough responses).1 = accSpec 0 responses
    ∧ ∀ i : Nat,
        (Event.pageError (i+1) ∈ (runSearch SearchMode.thorough responses).2
          ↔ responses[i]? = some Response.failure) := by
  obtain ⟨k, hk, heq, hcalls, hth, _, _⟩ :=
    runSearch_spec SearchMode.thorough responses
  have hkk := hth rfl
  subst hkk
  rw [List.take_length] at heq
  refine ⟨hcalls, by rw [heq], ?_⟩
  intro i
  have htr : (runSearch SearchMode.thorough responses).2
      = blockList responses.length 0 responses := by
    rw [heq]
  rw [htr, pageError_blockList]
  constructor
  · rintro ⟨j, hj, hp⟩
    have hij : j = i := by omega
    subst hij
    exact hj
  · intro h
    exact ⟨i, h, by omega⟩

/-- Claim C6, witness: page 1 of `c6wResponses` fails and gets a warning. -/
theorem C6_witness :
    Event.pageError 1 ∈ (runSearch SearchMode.thorough c6wResponses).2 :=
  ((C6_failure_isolation c6wResponses).2.2 0).mpr (by decide)

/-- Claim C7, counterexample.  The claim says every page with larger
dimension over 1000 is resized so that the larger dimension equals 1000.
Under the IEEE-754 double semantics of the actual code, a 1062-wide page
gives ratio fl(1000/1062) = 8481355230452911/2^53 (rounded down), and
1062 times that rounds to 1000 - 2^-43, which `int()` truncates to 999:
the larger output dimension is 999, not 1000. -/
theorem C7_counterexample :
    1000 < max 1062 531
    ∧ resize64 1062 531 (999, 499)
    ∧ max 999 499 ≠ 1000 :=
  ⟨by decide, resize64_cex, by decide⟩

/-- Claim C7, amended: images whose larger dimension is at most 1000 are
left unchanged; for larger images both dimensions are multiplied by the
double-rounded ratio fl(1000 / max(width, height)) and truncated, and the
larger dimension of the result is 999 or 1000 - rounding in the two float
operations can land the product just below 1000 (e.g. width 1062 gives
999), but never further away. -/
theorem C7_resize64 (w h : Nat) (out : Nat × Nat) :
    (max w h ≤ 1000 → (resize64 w h out ↔ out = (w, h)))
    ∧ (1000 < max w h → resize64 w h out →
        max out.1 out.2 = 999 ∨ max out.1 out.2 = 1000) := by
  constructor
  · intro hle
    rw [resize64, if_neg (Nat.not_lt.mpr hle)]
  · intro hgt hres
    rw [resize64, if_pos hgt] at hres
    obtain ⟨ratio, pw, ph, hratio, hpw, hph, hout⟩ := hres
    subst hout
    rcases le_total h w with hhw | hwh
    · have hMw : max w h = w := Nat.max_eq_left hhw
      rw [hMw] at hratio hgt
      obtain ⟨h999, h1000⟩ := roundsTo_component_max w ratio pw hgt hratio hpw
      have hle2 := roundsTo_component_le h w ratio ph hgt hhw hratio hph
      have hmax_le : max (⌊pw⌋).toNat (⌊ph⌋).toNat ≤ 1000 := max_le h1000 hle2
      have hmax_ge : 999 ≤ max (⌊pw⌋).toNat (⌊ph⌋).toNat :=
        le_trans h999 (Nat.le_max_left _ _)
      show max (⌊pw⌋).toNat (⌊ph⌋).toNat = 999
        ∨ max (⌊pw⌋).toNat (⌊ph⌋).toNat = 1000
      omega
    · have hMh : max w h = h := Nat.max_eq_right hwh
      rw [hMh] at hratio hgt
      obtain ⟨h999, h1000⟩ := roundsTo_component_max h ratio ph hgt hratio hph
      have hle2 := roundsTo_component_le w h ratio pw hgt hwh hratio hpw
      have hmax_le : max (⌊pw⌋).toNat (⌊ph⌋).toNat ≤ 1000 := max_le hle2 h1000
      have hmax_ge : 999 ≤ max (⌊pw⌋).toNat (⌊ph⌋).toNat :=
        le_trans h999 (Nat.le_max_right _ _)
      show max (⌊pw⌋).toNat (⌊ph⌋).toNat = 999
        ∨ max (⌊pw⌋).toNat (⌊ph⌋).toNat = 1000
      omega

/-- Claim C7 (amended), witness: the 1062 x 531 execution, whose larger
output dimension is 999 - inside the amended bound. -/
theorem C7_witness :
    max 999 499 = 999 ∨ max 999 499 = 1000 :=
  (C7_resize64 1062 531 (999, 499)).2 (by decide) resize64_cex

/-- Claim C8, counterexample.  The claim says the progress event for a
page is emitted after that page's processing completes; in the code
(app.py lines 135-137) it is emitted before the page is processed, so in
the one-page trace the progress event strictly precedes the client
call. -/
theorem C8_counterexample :
    (runSearch SearchMode.thorough [Response.many []]).2
        = [Event.progress 1 1, Event.call 1]
    ∧ List.indexOf (Event.progress 1 1)
          (runSearch SearchMode.thorough [Response.many []]).2
        < List.indexOf (Event.call 1)
          (runSearch SearchMode.thorough [Response.many []]).2 :=
  ⟨by decide, by decide⟩

/-- Claim C8, amended: for every search invocation there is a k ≤ N such
that the trace is exactly the concatenation of the per-page blocks of the
first k pages, the client is called exactly k times, and for every
processed page the progress event (pages_done, pages_total) is emitted
immediately before that page's client call - independent of whether the
page then succeeds or fails. -/
theorem C8_progress_before_call (mode : SearchMode) (responses : List Response) :
    ∃ k, k ≤ responses.length
      ∧ (runSearch mode responses).2
          = blockList responses.length 0 (responses.take k)
      ∧ countCalls (runSearch mode responses).2 = k
      ∧ ∀ i, i < k → ∃ s t, (runSearch mode responses).2
          = s ++ [Event.progress (i+1) responses.length, Event.call (i+1)] ++ t := by
  obtain ⟨k, hk, heq, hcalls, _, _, _⟩ := runSearch_spec mode responses
  have htr : (runSearch mode responses).2
      = blockList responses.length 0 (responses.take k) := by
    rw [heq]
  refine ⟨k, hk, htr, hcalls, ?_⟩
  intro i hi
  have hlen : i < (responses.take k).length := by
    rw [List.length_take]
    omega
  obtain ⟨s, t, hst⟩ :=
    progress_call_adjacent responses.length (responses.take k) 0 i hlen
  rw [htr]
  exact ⟨s, t, by simpa using hst⟩

/-- Claim C8 (amended), witness at a concrete one-page document. -/
theorem C8_witness :
    ∃ k, k ≤ [Response.many []].length
      ∧ (runSearch SearchMode.thorough [Response.many []]).2
          = blockList [Response.many []].length 0 ([Response.many []].take k)
      ∧ countCalls (runSearch SearchMode.thorough [Response.many []]).2 = k
      ∧ ∀ i, i < k → ∃ s t,
          (runSearch SearchMode.thorough [Response.many []]).2
            = s ++ [Event.progress (i+1) [Response.many []].length,
                    Event.call (i+1)] ++ t :=
  C8_progress_before_call SearchMode.thorough [Response.many []]

/-- Claim C9: whenever the accumulator ends empty (for example when every
page's candidates are filtered out or every page fails), the engine still
completes the whole scan (N calls, even in Quick mode) and reports the
"No answers found" outcome rather than an error - the handler is a total
function. -/
theorem C9_empty_result_ok (q : List Char) (mode : SearchMode)
    (responses : List Response) (hq : q ≠ [])
    (hempty : (runSearch mode responses).1 = []) :
    runApp q mode responses
      = AppResult.completed (runSearch mode responses).2 Report.noAnswers
    ∧ countCalls (runSearch mode responses).2 = responses.length := by
  constructor
  · simp [runApp, hq, hempty]
  · obtain ⟨k, hk, heq, hcalls, hth, hlt, _⟩ := runSearch_spec mode responses
    rcases Nat.lt_or_ge k responses.length with hlt' | hge
    · exfalso
      obtain ⟨h1k, _, hbrk⟩ := hlt hlt'
      obtain ⟨k', rfl⟩ : ∃ k', k = k' + 1 := ⟨k - 1, by omega⟩
      obtain ⟨hb1, hb2⟩ := hbrk
      have hne := quickBreakB_ne_nil _ hb2
      have hacc : (runSearch mode responses).1
          = accSpec 0 (responses.take (k'+1)) := by
        rw [heq]
      rw [hempty] at hacc
      rw [List.nil_append, ← hacc] at hne
      exact hne rfl
    · have hkl : k = responses.length := le_antisymm hk hge
      rw [hcalls, hkl]

/-- Claim C9, witness: a one-page document whose only page fails. -/
theorem C9_witness :
    runApp [ 'x' ] SearchMode.thorough [Response.failure]
      = AppResult.completed
          (runSearch SearchMode.thorough [Response.failure]).2 Report.noAnswers
    ∧ countCalls (runSearch SearchMode.thorough [Response.failure]).2 = 1 :=
  C9_empty_result_ok [ 'x' ] SearchMode.thorough [Response.failure]
    (by decide) (by decide)

/-- Claim C10: the normalisation and filtering of raw client results is
total - a bare dict becomes a one-element sequence; non-dict or falsy
elements are skipped; a dict without 'answer' defaults to empty text and
one without 'score' to score 0, and both are excluded - no shape raises. -/
theorem C10_normalisation_total :
    (∀ (t : Bool) (a : Option (List Char)) (s : Option ℚ),
        responseItems (Response.single t a s) = [RawItem.dictItem t a s])
    ∧ (∀ (i : Nat) (t : Bool), processItem i (RawItem.nonDict t) = none)
    ∧ (∀ (i : Nat) (a : Option (List Char)) (s : Option ℚ),
        processItem i (RawItem.dictItem false a s) = none)
    ∧ (∀ (i : Nat) (s : Option ℚ),
        processItem i (RawItem.dictItem true none s) = none)
    ∧ (∀ (i : Nat) (a : Option (List Char)),
        processItem i (RawItem.dictItem true a none) = none) := by
  refine ⟨fun t a s => rfl, fun i t => rfl, fun i a s => rfl, ?_, ?_⟩
  · intro i s
    simp only [processItem]
    split
    · rename_i hcond
      exact absurd rfl hcond.2
    · rfl
  · intro i a
    simp only [processItem]
    split
    · rename_i hcond
      have h1 := hcond.1
      rw [inclusionThreshold_eq] at h1
      norm_num [Option.getD_none] at h1
    · rfl

end DocQA
